import Mathlib

/-!
Verification of the order-finding-based factorization engine and the
phase-estimation circuit descriptor builder of QuantumCyberSim.

The repository contains two parallel implementations:
* `src/shor_algorithm.py` — class `ShorAlgorithm` with `find_factors`,
  `_classical_period_finding`, `quantum_period_finding`,
  `_controlled_modular_exponentiation` and `_inverse_qft`;
* `src/simple_shor_demo.py` — functions `shors_algorithm`, `find_period`
  and `quantum_phase_estimation`.

Both are shallowly embedded below.  Integer arithmetic is exact (ℕ / ℤ,
mirroring Python's arbitrary-precision integers).  The source's
floating-point helpers are embedded by their exact integer counterparts:
`int(np.log2(N))` as `floor_log2 N`, `int(np.ceil(np.log2(N)))` as
`ceil_log2 N`, and `int(N ** (1 / b))` as the exact integer b-th root
(`int_root` below).  Gate phase angles, which the source stores as floats,
are recorded exactly as rational multiples of π.

The random base draws of the attempt loop (`np.random.randint(2, N)`, one
draw per attempt) are modelled by an explicit list `draws`, one entry per
attempt; `max_attempts` is the length of that list.
-/

/-- `find_period(a, N)` of `simple_shor_demo.py` and
`ShorAlgorithm._classical_period_finding(a)` of `shor_algorithm.py` are the
same loop: `for r in range(1, N): if pow(a, r, N) == 1: return r` followed by
`return None`.  `find_period_go a N fuel r` runs the loop from index `r` with
`fuel` iterations remaining. -/
def find_period_go (a N : ℕ) : ℕ → ℕ → Option ℕ
  | 0, _ => none
  | fuel + 1, r => if a ^ r % N = 1 then some r else find_period_go a N fuel (r + 1)

/-- The period search: first `r` in `range(1, N)` with `a^r mod N = 1`,
`none` when the range is exhausted. -/
def find_period (a N : ℕ) : Option ℕ :=
  find_period_go a N (N - 1) 1

/-- Floor base-2 logarithm, `int(np.log2(N))` of the source, computed by
repeated halving (`fuel` bounds the recursion; `n` halves to below 2 within
`n` steps). -/
def floor_log2_go : ℕ → ℕ → ℕ
  | 0, _ => 0
  | fuel + 1, n => if 2 ≤ n then floor_log2_go fuel (n / 2) + 1 else 0

/-- `int(np.log2(N))`: the largest `k` with `2 ^ k ≤ N` (for `N ≥ 1`). -/
def floor_log2 (n : ℕ) : ℕ :=
  floor_log2_go n n

/-- `int(np.ceil(np.log2(N)))`: the least `k` with `N ≤ 2 ^ k` (for `N ≥ 1`),
used by both builders for the auxiliary register width. -/
def ceil_log2 (n : ℕ) : ℕ :=
  if n ≤ 1 then 0 else floor_log2 (n - 1) + 1

/-- Exact integer b-th root: the largest `a` with `a ^ b ≤ N`.  This embeds
the source expression `int(N ** (1 / b))` (whose floating-point rounding the
embedding does not model; see the discussion in the perfect-power theorems). -/
def int_root (N b : ℕ) : ℕ :=
  Nat.findGreatest (fun a => a ^ b ≤ N) N

/-- The perfect-power scan shared by both implementations:
`for b in range(2, int(np.log2(N)) + 1): a = int(N ** (1/b)); if a ** b == N: ...`.
Returns the first exponent `b` for which the root check succeeds. -/
def perfect_power_exponent (N : ℕ) : Option ℕ :=
  (List.range' 2 (floor_log2 N - 1)).find? (fun b => int_root N b ^ b == N)

/-- Factor candidates of `ShorAlgorithm.find_factors`:
`x = pow(a, r // 2, self.N); factor1 = gcd(x - 1, self.N); factor2 = gcd(x + 1, self.N)`.
Computed in ℤ because `x - 1` may be negative in Python when `x = 0`. -/
def shor_factor_pair (N a r : ℕ) : ℕ × ℕ :=
  let x : ℤ := (a : ℤ) ^ (r / 2) % (N : ℤ)
  (Int.gcd (x - 1) N, Int.gcd (x + 1) N)

/-- Factor candidates of `shors_algorithm` in `simple_shor_demo.py`:
`factor1 = gcd(a ** (r // 2) - 1, N); factor2 = gcd(a ** (r // 2) + 1, N)` —
the power is taken without modular reduction here. -/
def demo_factor_pair (N a r : ℕ) : ℕ × ℕ :=
  (Int.gcd ((a : ℤ) ^ (r / 2) - 1) N, Int.gcd ((a : ℤ) ^ (r / 2) + 1) N)

/-- One iteration of the randomized attempt loop of
`ShorAlgorithm.find_factors`, for the drawn base `a`:
gcd shortcut, period finding, even-order check, factor derivation.
`none` means "this attempt failed, continue". -/
def find_factors_attempt (N a : ℕ) : Option (ℕ × ℕ) :=
  let g := Nat.gcd a N
  if g > 1 then some (g, N / g)
  else
    match find_period a N with
    | none => none
    | some r =>
      if r % 2 ≠ 0 then none
      else
        let p := shor_factor_pair N a r
        if 1 < p.1 ∧ p.1 < N then some (p.1, N / p.1)
        else if 1 < p.2 ∧ p.2 < N then some (p.2, N / p.2)
        else none

/-- One iteration of the attempt loop of `shors_algorithm`
(`simple_shor_demo.py`); identical control flow, but the factor derivation
uses the unreduced power. -/
def shors_algorithm_attempt (N a : ℕ) : Option (ℕ × ℕ) :=
  let g := Nat.gcd a N
  if g > 1 then some (g, N / g)
  else
    match find_period a N with
    | none => none
    | some r =>
      if r % 2 ≠ 0 then none
      else
        let p := demo_factor_pair N a r
        if p.1 > 1 ∧ p.1 < N then some (p.1, N / p.1)
        else if p.2 > 1 ∧ p.2 < N then some (p.2, N / p.2)
        else none

/-- The `for attempt in range(max_attempts)` loop of
`ShorAlgorithm.find_factors`, consuming one drawn base per attempt. -/
def find_factors_loop (N : ℕ) : List ℕ → Option (ℕ × ℕ)
  | [] => none
  | a :: rest =>
    match find_factors_attempt N a with
    | some pq => some pq
    | none => find_factors_loop N rest

/-- The `for attempt in range(5)` loop of `shors_algorithm`. -/
def shors_algorithm_loop (N : ℕ) : List ℕ → Option (ℕ × ℕ)
  | [] => none
  | a :: rest =>
    match shors_algorithm_attempt N a with
    | some pq => some pq
    | none => shors_algorithm_loop N rest

/-- `ShorAlgorithm.find_factors` (`shor_algorithm.py`, lines 76-132):
trivial-even check, perfect-power check (returning `(a, N // a)`), then the
randomized attempt loop.  `some (p, q)` is a returned factor pair, `none` is
the `return None, None` failure. -/
def find_factors (N : ℕ) (draws : List ℕ) : Option (ℕ × ℕ) :=
  if N % 2 = 0 then some (2, N / 2)
  else
    match perfect_power_exponent N with
    | some b => some (int_root N b, N / int_root N b)
    | none => find_factors_loop N draws

/-- `shors_algorithm(N)` (`simple_shor_demo.py`, lines 66-124).  Note the
perfect-power branch of the source is literally `return a, b` — it returns
the exponent `b` as the second component — and the attempt loop is fixed at
five attempts. -/
def shors_algorithm (N : ℕ) (draws : List ℕ) : Option (ℕ × ℕ) :=
  if N % 2 = 0 then some (2, N / 2)
  else
    match perfect_power_exponent N with
    | some b => some (int_root N b, b)
    | none => shors_algorithm_loop N (draws.take 5)

/-! ### Circuit descriptors

Both builders only ever append gates to a `QuantumCircuit`; the descriptor
is the ordered gate list plus the register sizes.  Angles are stored exactly,
in units of π: `Gate.cp θ c t` is the source's `qc.cp(θ * π, c, t)`. -/

/-- One gate operation of the structural circuit descriptor.  The angle of a
conditional-phase gate is recorded in units of π (an exact rational), so the
source's `qc.cp(angle, c, t)` with `angle = 2 * np.pi * v / N` is
`Gate.cp (2 * v / N) c t`. -/
inductive Gate where
  | h (q : ℕ)
  | x (q : ℕ)
  | cp (angle : ℚ) (control target : ℕ)
  | swap (q1 q2 : ℕ)
  | measure (q c : ℕ)
deriving DecidableEq

/-- The structural record returned by the builders: register sizes and the
ordered gate sequence (the fields `num_qubits` / `num_clbits` of a Qiskit
`QuantumCircuit(n_qubits, n_clbits)` and its instruction list). -/
structure QuantumCircuit where
  num_qubits : ℕ
  num_clbits : ℕ
  gates : List Gate
deriving DecidableEq

/-- `ShorAlgorithm._controlled_modular_exponentiation(qc, control, a, power)`:
`angle = 2π (a ** power % N) / N`; the gate is emitted only when
`n_qubits + len(qc.qubits) > control + 1` and `target > control`, where
`target = len(qc.qubits) - n_qubits`.  `num_qubits` is `len(qc.qubits)`. -/
def controlled_modular_exponentiation (N n_qubits num_qubits a control power : ℕ) :
    List Gate :=
  let angle : ℚ := 2 * ((a ^ power % N : ℕ) : ℚ) / (N : ℚ)
  if n_qubits + num_qubits > control + 1 then
    let target := num_qubits - n_qubits
    if target > control then [Gate.cp angle control target] else []
  else []

/-- The `for q in range(m)` loop of `quantum_period_finding` that invokes
`_controlled_modular_exponentiation(qc, q, a, 2 ** q)` for each `q`. -/
def cme_sequence (N n_qubits num_qubits a : ℕ) : ℕ → List Gate
  | 0 => []
  | m + 1 =>
    cme_sequence N n_qubits num_qubits a m
      ++ controlled_modular_exponentiation N n_qubits num_qubits a m (2 ^ m)

/-- The rotation part of the inverse QFT: `for j in range(m): qc.h(j);`
`for k in range(j): qc.cp(-np.pi / 2 ** (j - k), k, j)`.  The angle in π
units is `-(1 / 2 ^ (j - k))`. -/
def inverse_qft_rotations : ℕ → List Gate
  | 0 => []
  | j + 1 =>
    inverse_qft_rotations j
      ++ (Gate.h j :: (List.range j).map (fun k => Gate.cp (-(1 / 2 ^ (j - k) : ℚ)) k j))

/-- `ShorAlgorithm._inverse_qft(qc, n)`: midpoint swaps followed by the
rotation schedule. -/
def inverse_qft (n : ℕ) : List Gate :=
  (List.range (n / 2)).map (fun i => Gate.swap i (n - i - 1)) ++ inverse_qft_rotations n

/-- `ShorAlgorithm.quantum_period_finding(a, precision)` for modulus `N`
(`shor_algorithm.py`, lines 21-52), with `n_qubits = ceil(log2 N)` from the
constructor: Hadamards on the counting register, `X` on qubit `precision`,
the controlled modular-exponentiation approximations, the inverse QFT, and
the measurements. -/
def quantum_period_finding (N a precision : ℕ) : QuantumCircuit :=
  let n_qubits := ceil_log2 N
  let num_qubits := precision + n_qubits
  { num_qubits := num_qubits
    num_clbits := precision
    gates :=
      (List.range precision).map Gate.h
        ++ [Gate.x precision]
        ++ cme_sequence N n_qubits num_qubits a precision
        ++ inverse_qft precision
        ++ (List.range precision).map (fun i => Gate.measure i i) }

/-- `quantum_phase_estimation(a, N, precision)` (`simple_shor_demo.py`,
lines 13-53): same layout, but the conditional-phase angle is
`2π * (a ** (2 ** j)) / N` — without the modular reduction — and the gate is
emitted unconditionally with target `n_count`. -/
def quantum_phase_estimation (a N precision : ℕ) : QuantumCircuit :=
  let n_count := precision
  let n_aux := ceil_log2 N
  { num_qubits := n_count + n_aux
    num_clbits := n_count
    gates :=
      (List.range n_count).map Gate.h
        ++ [Gate.x n_count]
        ++ (List.range n_count).map
            (fun j => Gate.cp (2 * ((a ^ 2 ^ j : ℕ) : ℚ) / (N : ℚ)) j n_count)
        ++ inverse_qft n_count
        ++ (List.range n_count).map (fun i => Gate.measure i i) }

/-- Recognizes the conditional-phase gates that link counting position `j`
to an auxiliary target (a target at or beyond the counting register of width
`n_count`). -/
def is_aux_cp (n_count j : ℕ) : Gate → Bool
  | Gate.cp _ c t => decide (c = j ∧ n_count ≤ t)
  | _ => false

/-! ### Properties of the period search -/

theorem find_period_go_some {a N : ℕ} :
    ∀ {fuel s r : ℕ}, find_period_go a N fuel s = some r →
      s ≤ r ∧ r < s + fuel ∧ a ^ r % N = 1 ∧ ∀ t, s ≤ t → t < r → a ^ t % N ≠ 1 := by
  intro fuel
  induction fuel with
  | zero => intro s r h; simp [find_period_go] at h
  | succ fuel ih =>
    intro s r h
    rw [find_period_go] at h
    by_cases hs : a ^ s % N = 1
    · rw [if_pos hs] at h
      obtain rfl : s = r := by simpa using h
      exact ⟨le_rfl, by omega, hs, fun t h1 h2 => absurd (h1.trans_lt h2) (lt_irrefl _)⟩
    · rw [if_neg hs] at h
      obtain ⟨h1, h2, h3, h4⟩ := ih h
      refine ⟨by omega, by omega, h3, fun t ht1 ht2 => ?_⟩
      rcases Nat.eq_or_lt_of_le ht1 with rfl | ht1'
      · exact hs
      · exact h4 t ht1' ht2

theorem find_period_go_none {a N : ℕ} :
    ∀ {fuel s : ℕ}, find_period_go a N fuel s = none →
      ∀ t, s ≤ t → t < s + fuel → a ^ t % N ≠ 1 := by
  intro fuel
  induction fuel with
  | zero => intro s _ t h1 h2; omega
  | succ fuel ih =>
    intro s h t h1 h2
    rw [find_period_go] at h
    by_cases hs : a ^ s % N = 1
    · rw [if_pos hs] at h; exact absurd h (by simp)
    · rw [if_neg hs] at h
      rcases Nat.eq_or_lt_of_le h1 with rfl | h1'
      · exact hs
      · exact ih h t h1' (by omega)

theorem find_period_go_eq_find? (a N : ℕ) :
    ∀ fuel s, find_period_go a N fuel s
      = (List.range' s fuel).find? (fun r => decide (a ^ r % N = 1)) := by
  intro fuel
  induction fuel with
  | zero => intro s; rfl
  | succ fuel ih =>
    intro s
    rw [find_period_go, List.range'_succ, List.find?_cons]
    by_cases hs : a ^ s % N = 1
    · simp [hs]
    · simp only [decide_eq_false hs, if_neg hs]
      exact ih (s + 1)

/-! ### Arithmetic helper: gcd is invariant under shifting by a multiple of N -/

theorem int_gcd_add_mul (y k : ℤ) (N : ℕ) : Int.gcd (y + (N : ℤ) * k) N = Int.gcd y N := by
  apply Nat.dvd_antisymm
  · rw [← Int.natCast_dvd_natCast]
    refine Int.dvd_gcd ?_ Int.gcd_dvd_right
    have h1 : (Int.gcd (y + (N : ℤ) * k) N : ℤ) ∣ y + (N : ℤ) * k := Int.gcd_dvd_left
    have h2 : (Int.gcd (y + (N : ℤ) * k) N : ℤ) ∣ (N : ℤ) * k :=
      Dvd.dvd.mul_right Int.gcd_dvd_right k
    simpa using dvd_sub h1 h2
  · rw [← Int.natCast_dvd_natCast]
    refine Int.dvd_gcd ?_ Int.gcd_dvd_right
    exact dvd_add Int.gcd_dvd_left (Dvd.dvd.mul_right Int.gcd_dvd_right k)

theorem int_gcd_emod_add (x c : ℤ) (N : ℕ) :
    Int.gcd (x % (N : ℤ) + c) N = Int.gcd (x + c) N := by
  have h : x % (N : ℤ) + c = (x + c) + (N : ℤ) * (-(x / N)) := by
    rw [Int.emod_def]; ring
  rw [h, int_gcd_add_mul]

/-! ### List helpers for locating the conditional-phase gates -/

theorem filter_map_false {α β : Type} (p : β → Bool) (f : α → β) (l : List α)
    (h : ∀ x, p (f x) = false) : (l.map f).filter p = [] := by
  induction l with
  | nil => rfl
  | cons a l ih => simp [List.filter, h a, ih]

theorem filter_map_range_single {α : Type} (p : α → Bool) (f : ℕ → α) {n j : ℕ}
    (hj : j < n) (hpf : ∀ q, p (f q) = decide (q = j)) :
    ((List.range n).map f).filter p = [f j] := by
  induction n with
  | zero => omega
  | succ n ih =>
    rw [List.range_succ, List.map_append, List.filter_append]
    rcases Nat.lt_succ_iff_lt_or_eq.1 hj with hj' | rfl
    · rw [ih hj']
      have : p (f n) = false := by rw [hpf n]; simp; omega
      simp [List.filter, this]
    · have : ((List.range j).map f).filter p = [] := by
        refine List.filter_eq_nil_iff.2 ?_
        intro g hg
        obtain ⟨q, hq, rfl⟩ := List.mem_map.1 hg
        rw [hpf q]
        simp only [List.mem_range] at hq
        simp; omega
      rw [this]
      have : p (f j) = true := by rw [hpf j]; simp
      simp [List.filter, this]

theorem filter_cme_sequence (N a precision j : ℕ) (hN : 1 ≤ ceil_log2 N) :
    ∀ m, m ≤ precision →
      (cme_sequence N (ceil_log2 N) (precision + ceil_log2 N) a m).filter
          (is_aux_cp precision j)
        = if j < m then
            [Gate.cp (2 * ((a ^ 2 ^ j % N : ℕ) : ℚ) / (N : ℚ)) j precision]
          else [] := by
  intro m
  induction m with
  | zero => intro _; rfl
  | succ m ih =>
    intro hm
    have hcme : controlled_modular_exponentiation N (ceil_log2 N)
        (precision + ceil_log2 N) a m (2 ^ m)
        = [Gate.cp (2 * ((a ^ 2 ^ m % N : ℕ) : ℚ) / (N : ℚ)) m (precision + ceil_log2 N - ceil_log2 N)] := by
      rw [controlled_modular_exponentiation]
      rw [if_pos (by omega)]
      rw [if_pos (by omega)]
    rw [cme_sequence, List.filter_append, ih (by omega), hcme]
    have hsub : precision + ceil_log2 N - ceil_log2 N = precision := by omega
    rw [hsub]
    by_cases hjm : j < m
    · rw [if_pos hjm, if_pos (by omega)]
      have : is_aux_cp precision j
          (Gate.cp (2 * ((a ^ 2 ^ m % N : ℕ) : ℚ) / (N : ℚ)) m precision) = false := by
        simp [is_aux_cp]; omega
      simp [List.filter, this]
    · rw [if_neg hjm]
      by_cases hjm' : j = m
      · subst hjm'
        rw [if_pos (by omega)]
        have : is_aux_cp precision j
            (Gate.cp (2 * ((a ^ 2 ^ j % N : ℕ) : ℚ) / (N : ℚ)) j precision) = true := by
          simp [is_aux_cp]
        simp [List.filter, this]
      · rw [if_neg (by omega)]
        have : is_aux_cp precision j
            (Gate.cp (2 * ((a ^ 2 ^ m % N : ℕ) : ℚ) / (N : ℚ)) m precision) = false := by
          simp [is_aux_cp]; omega
        simp [List.filter, this]

theorem filter_inverse_qft_rotations (n_count j : ℕ) :
    ∀ m, m ≤ n_count →
      (inverse_qft_rotations m).filter (is_aux_cp n_count j) = [] := by
  intro m
  induction m with
  | zero => intro _; rfl
  | succ m ih =>
    intro hm
    rw [inverse_qft_rotations, List.filter_append, ih (by omega)]
    have hh : is_aux_cp n_count j (Gate.h m) = false := rfl
    have hcp : ((List.range m).map
        (fun k => Gate.cp (-(1 / 2 ^ (m - k) : ℚ)) k m)).filter (is_aux_cp n_count j) = [] := by
      refine filter_map_false _ _ _ ?_
      intro k
      simp [is_aux_cp]; omega
    rw [List.nil_append, List.filter_cons, hh]
    simpa using hcp

theorem filter_inverse_qft (n_count j : ℕ) :
    (inverse_qft n_count).filter (is_aux_cp n_count j) = [] := by
  rw [inverse_qft, List.filter_append, filter_inverse_qft_rotations n_count j n_count le_rfl]
  rw [filter_map_false _ _ _ (fun i => rfl)]
  rfl

/-! ### The logarithm helpers compute floor/ceil of log2 -/

theorem floor_log2_go_spec :
    ∀ fuel m, 1 ≤ m → m ≤ fuel →
      2 ^ floor_log2_go fuel m ≤ m ∧ m < 2 ^ (floor_log2_go fuel m + 1) := by
  intro fuel
  induction fuel with
  | zero => intro m h1 h2; omega
  | succ fuel ih =>
    intro m h1 h2
    rw [floor_log2_go]
    by_cases h : 2 ≤ m
    · rw [if_pos h]
      obtain ⟨ha, hb⟩ := ih (m / 2) (by omega) (by omega)
      set k := floor_log2_go fuel (m / 2) with hk
      have e1 : 2 ^ (k + 1) = 2 ^ k * 2 := pow_succ 2 k
      have e2 : 2 ^ (k + 1 + 1) = 2 ^ (k + 1) * 2 := pow_succ 2 (k + 1)
      constructor <;> omega
    · rw [if_neg h]
      norm_num
      omega

theorem ceil_log2_spec (n : ℕ) (hn : 2 ≤ n) :
    n ≤ 2 ^ ceil_log2 n ∧ 2 ^ (ceil_log2 n - 1) < n := by
  rw [ceil_log2, if_neg (by omega)]
  obtain ⟨ha, hb⟩ := floor_log2_go_spec (n - 1) (n - 1) (by omega) le_rfl
  have hfl : floor_log2 (n - 1) = floor_log2_go (n - 1) (n - 1) := rfl
  rw [hfl]
  simp only [Nat.add_sub_cancel]
  set k := floor_log2_go (n - 1) (n - 1) with hk
  constructor <;> omega

theorem ceil_log2_pos (n : ℕ) (hn : 2 ≤ n) : 1 ≤ ceil_log2 n := by
  rw [ceil_log2, if_neg (by omega)]
  omega

/-! ### The conditional-phase gate linking each counting position to the
auxiliary register, in each of the two builders -/

theorem quantum_period_finding_aux_cp (N a precision j : ℕ) (hN : 2 ≤ N)
    (hj : j < precision) :
    (quantum_period_finding N a precision).gates.filter (is_aux_cp precision j)
      = [Gate.cp (2 * ((a ^ 2 ^ j % N : ℕ) : ℚ) / (N : ℚ)) j precision] := by
  have hclog := ceil_log2_pos N hN
  simp only [quantum_period_finding, List.filter_append]
  rw [filter_map_false _ Gate.h _ (fun i => rfl),
    filter_cme_sequence N a precision j hclog precision le_rfl,
    filter_inverse_qft precision j,
    filter_map_false _ (fun i => Gate.measure i i) _ (fun i => rfl),
    if_pos hj]
  rfl

theorem quantum_phase_estimation_aux_cp (a N precision j : ℕ) (hj : j < precision) :
    (quantum_phase_estimation a N precision).gates.filter (is_aux_cp precision j)
      = [Gate.cp (2 * ((a ^ 2 ^ j : ℕ) : ℚ) / (N : ℚ)) j precision] := by
  simp only [quantum_phase_estimation, List.filter_append]
  rw [filter_map_false _ Gate.h _ (fun i => rfl),
    filter_map_range_single (is_aux_cp precision j)
      (fun j' => Gate.cp (2 * ((a ^ 2 ^ j' : ℕ) : ℚ) / (N : ℚ)) j' precision) hj
      (fun q => by simp [is_aux_cp]),
    filter_inverse_qft precision j,
    filter_map_false _ (fun i => Gate.measure i i) _ (fun i => rfl)]
  rfl

/-! ### The claims -/

/-- Claim C5: for every `N ≥ 2` and every `a` with `1 ≤ a < N`,
`find_order(a, N)` (source names: `find_period` / `_classical_period_finding`)
returns the smallest positive `r ≤ N - 1` with `a ^ r mod N = 1` when such an
`r` exists, and `None` when no `r` in `[1, N - 1]` satisfies the congruence. -/
theorem find_period_correct (a N : ℕ) (hN : 2 ≤ N) (ha1 : 1 ≤ a) (ha2 : a < N) :
    (∀ r, find_period a N = some r →
        1 ≤ r ∧ r ≤ N - 1 ∧ a ^ r % N = 1 ∧ ∀ t, 1 ≤ t → t < r → a ^ t % N ≠ 1)
    ∧ ((∃ r, 1 ≤ r ∧ r ≤ N - 1 ∧ a ^ r % N = 1) → ∃ r, find_period a N = some r)
    ∧ (find_period a N = none → ∀ r, 1 ≤ r → r ≤ N - 1 → a ^ r % N ≠ 1) := by
  refine ⟨?_, ?_, ?_⟩
  · intro r h
    obtain ⟨h1, h2, h3, h4⟩ := find_period_go_some h
    exact ⟨h1, by omega, h3, fun t u v => h4 t u v⟩
  · rintro ⟨r, h1, h2, h3⟩
    cases h : find_period a N with
    | some r' => exact ⟨r', rfl⟩
    | none => exact absurd h3 (find_period_go_none h r h1 (by omega))
  · intro h r h1 h2
    exact find_period_go_none h r h1 (by omega)

/-- Witness for C5: at `a = 2`, `N = 5` the hypotheses hold and the
conclusion is obtained from `find_period_correct` (concretely,
`find_period 2 5 = some 4`). -/
theorem find_period_correct_witness :
    (2 ≤ 5 ∧ 1 ≤ 2 ∧ 2 < 5) ∧ find_period 2 5 = some 4
    ∧ ((∀ r, find_period 2 5 = some r →
          1 ≤ r ∧ r ≤ 5 - 1 ∧ 2 ^ r % 5 = 1 ∧ ∀ t, 1 ≤ t → t < r → 2 ^ t % 5 ≠ 1)
      ∧ ((∃ r, 1 ≤ r ∧ r ≤ 5 - 1 ∧ 2 ^ r % 5 = 1) → ∃ r, find_period 2 5 = some r)
      ∧ (find_period 2 5 = none → ∀ r, 1 ≤ r → r ≤ 5 - 1 → 2 ^ r % 5 ≠ 1)) :=
  ⟨by decide, by decide, find_period_correct 2 5 (by decide) (by decide) (by decide)⟩

/-- Claim C10: for every `N ≥ 2` and `1 ≤ a < N`, the period search
terminates: it is the first-match scan of the length-`(N - 1)` list
`range(1, N)` (so, at most `N - 1` iterations), and it always returns either
an order `r ≤ N - 1` or `None` — also when `a` is not coprime to `N`. -/
theorem find_period_terminates (a N : ℕ) (hN : 2 ≤ N) (ha1 : 1 ≤ a) (ha2 : a < N) :
    find_period a N = (List.range' 1 (N - 1)).find? (fun r => decide (a ^ r % N = 1))
    ∧ (List.range' 1 (N - 1)).length = N - 1
    ∧ (find_period a N = none ∨ ∃ r, find_period a N = some r ∧ 1 ≤ r ∧ r ≤ N - 1) := by
  refine ⟨find_period_go_eq_find? a N (N - 1) 1, by simp, ?_⟩
  cases h : find_period a N with
  | none => exact Or.inl rfl
  | some r =>
    obtain ⟨h1, h2, -, -⟩ := find_period_go_some h
    exact Or.inr ⟨r, rfl, h1, by omega⟩

/-- Witness for C10: at `a = 3`, `N = 7` the hypotheses hold and the
conclusion is obtained from `find_period_terminates` (concretely,
`find_period 3 7 = some 6`). -/
theorem find_period_terminates_witness :
    (2 ≤ 7 ∧ 1 ≤ 3 ∧ 3 < 7) ∧ find_period 3 7 = some 6
    ∧ (find_period 3 7 = (List.range' 1 (7 - 1)).find? (fun r => decide (3 ^ r % 7 = 1))
      ∧ (List.range' 1 (7 - 1)).length = 7 - 1
      ∧ (find_period 3 7 = none ∨ ∃ r, find_period 3 7 = some r ∧ 1 ≤ r ∧ r ≤ 7 - 1)) :=
  ⟨by decide, by decide, find_period_terminates 3 7 (by decide) (by decide) (by decide)⟩

/-- Claim C7: for every even `N ≥ 4` and every outcome of `max_attempts` and
of the draws (any `draws` list — in particular the empty one, so no random
base is consumed), both implementations return `(2, N / 2)` from the
trivial-even check that precedes the attempt loop. -/
theorem find_factors_even (N : ℕ) (draws draws' : List ℕ) (hmod : N % 2 = 0)
    (hN : 4 ≤ N) :
    find_factors N draws = some (2, N / 2)
    ∧ shors_algorithm N draws' = some (2, N / 2) := by
  constructor
  · simp only [find_factors]
    rw [if_pos hmod]
  · simp only [shors_algorithm]
    rw [if_pos hmod]

/-- Witness for C7: `N = 4` with no draws at all; both implementations
return `(2, 2)`. -/
theorem find_factors_even_witness :
    (4 % 2 = 0 ∧ 4 ≤ 4) ∧ find_factors 4 [] = some (2, 2)
    ∧ (find_factors 4 [] = some (2, 4 / 2) ∧ shors_algorithm 4 [] = some (2, 4 / 2)) :=
  ⟨by decide, by decide, find_factors_even 4 [] [] (by decide) (by decide)⟩

/-- Claim C9: for every base `a`, modulus `N ≥ 2` and even order `r`, the
factor-derivation steps of the two implementations agree: the gcds computed
from the unreduced power `a ^ (r / 2)` (`simple_shor_demo.py`) equal the gcds
computed from `pow(a, r // 2, N)` (`shor_algorithm.py`), for both the `- 1`
and the `+ 1` case. -/
theorem factor_derivation_agrees (a N r : ℕ) (hN : 2 ≤ N) (hr : r % 2 = 0) :
    demo_factor_pair N a r = shor_factor_pair N a r := by
  have h1 : Int.gcd ((a : ℤ) ^ (r / 2) % (N : ℤ) - 1) N
      = Int.gcd ((a : ℤ) ^ (r / 2) - 1) N := by
    simpa [sub_eq_add_neg] using int_gcd_emod_add ((a : ℤ) ^ (r / 2)) (-1) N
  have h2 : Int.gcd ((a : ℤ) ^ (r / 2) % (N : ℤ) + 1) N
      = Int.gcd ((a : ℤ) ^ (r / 2) + 1) N := int_gcd_emod_add ((a : ℤ) ^ (r / 2)) 1 N
  simp only [demo_factor_pair, shor_factor_pair, h1, h2]

/-- Witness for C9: at `a = 2`, `N = 15`, `r = 4` both derivations give the
factor pair `(3, 5)`. -/
theorem factor_derivation_agrees_witness :
    (2 ≤ 15 ∧ 4 % 2 = 0) ∧ shor_factor_pair 15 2 4 = (3, 5)
    ∧ demo_factor_pair 15 2 4 = shor_factor_pair 15 2 4 :=
  ⟨by decide, by decide, factor_derivation_agrees 2 15 4 (by decide) (by decide)⟩

/-- Claim C1 (code bug): the returned-pair invariant `p * q = N`,
`1 < p < N`, `1 < q < N` fails on the code: `shors_algorithm(9)` returns
`(3, 2)` from the perfect-power branch (`return a, b` instead of
`(a, N // a)`), with product `6 ≠ 9`; moreover `find_factors(2)` returns the
degenerate pair `(2, 1)` with `q = 1`. -/
theorem factor_pair_invariant_violation :
    shors_algorithm 9 [] = some (3, 2) ∧ 3 * 2 ≠ 9
    ∧ find_factors 2 [] = some (2, 1) :=
  ⟨by decide, by decide, by decide⟩

/-- Claim C2 (code bug): for the odd perfect power `N = 9 = 3 ^ 2`,
`shors_algorithm` returns `(3, 2)` — the base together with the exponent —
instead of `(a, N / a) = (3, 3)`; `find_factors` returns `(3, 3)` as claimed,
deterministically, for every draw sequence. -/
theorem perfect_power_return_value_bug :
    shors_algorithm 9 [] = some (3, 2) ∧ ((3, 2) : ℕ × ℕ) ≠ (3, 9 / 3)
    ∧ ∀ draws : List ℕ, find_factors 9 draws = some (3, 3) :=
  ⟨by decide, by decide, fun _ => rfl⟩

/-- Claim C4 (counterexample): an invalid input does not make the operation
fail before any computation begins — `find_factors 0` runs to completion and
returns the "success" pair `(2, 0)` from the trivial-even branch, and the
circuit builder accepts `precision = 0`, returning a descriptor. -/
theorem no_validation_counterexample :
    find_factors 0 [] = some (2, 0)
    ∧ (quantum_phase_estimation 2 15 0).num_clbits = 0 :=
  ⟨by decide, by decide⟩

/-- Claim C4 (amended): neither entry point validates its inputs.  For
`N = 0 < 2` both factorization routines return `(2, 0)` with no error, and
for `precision = 0 < 1` the builder returns a normal descriptor — zero
classical bits and a gate list consisting of the single state-preparation
gate. -/
theorem no_input_validation :
    find_factors 0 [] = some (2, 0) ∧ shors_algorithm 0 [] = some (2, 0)
    ∧ ∀ a N : ℕ, (quantum_phase_estimation a N 0).num_clbits = 0
        ∧ (quantum_phase_estimation a N 0).gates = [Gate.x 0] :=
  ⟨by decide, by decide, fun _ _ => ⟨rfl, rfl⟩⟩

/-- Claim C6 (counterexample): `factor(15, 5)` does not succeed on every
outcome of the draws: if every one of the five drawn bases is `14`, each
attempt dead-ends (`14 ≡ -1 mod 15`, order 2, `x = 14`,
`gcd(13, 15) = 1`, `gcd(15, 15) = 15`) and the procedure fails. -/
theorem factor_15_all_14_draws_fail :
    find_factors 15 [14, 14, 14, 14, 14] = none := by decide

/-- Claim C6 (amended): `factor(15, max_attempts)` succeeds with
`{p, q} = {3, 5}` for every outcome of the draws in which at least one drawn
base differs from `14`; `14` is the only base in `[2, 14]` whose attempt
yields no factor. -/
theorem factor_15_succeeds (draws : List ℕ) (hin : ∀ d ∈ draws, 2 ≤ d ∧ d < 15)
    (hne : ∃ d ∈ draws, d ≠ 14) :
    find_factors 15 draws = some (3, 5) ∨ find_factors 15 draws = some (5, 3) := by
  have hred : find_factors 15 draws = find_factors_loop 15 draws := rfl
  rw [hred]
  clear hred
  induction draws with
  | nil => simp at hne
  | cons d rest ih =>
    have hd := hin d (by simp)
    by_cases hd14 : d = 14
    · subst hd14
      have hnone : find_factors_attempt 15 14 = none := by decide
      simp only [find_factors_loop, hnone]
      refine ih (fun d' hd' => hin d' (by simp [hd'])) ?_
      obtain ⟨d', hd', hne'⟩ := hne
      rcases List.mem_cons.1 hd' with rfl | hmem
      · exact absurd rfl hne'
      · exact ⟨d', hmem, hne'⟩
    · have key : ∀ a' < 15, (2 ≤ a' ∧ a' ≠ 14) →
          (find_factors_attempt 15 a' = some (3, 5)
            ∨ find_factors_attempt 15 a' = some (5, 3)) := by decide
      rcases key d hd.2 ⟨hd.1, hd14⟩ with h | h
      · left
        simp only [find_factors_loop, h]
      · right
        simp only [find_factors_loop, h]

/-- Witness for the amended C6: the single draw `a = 3` is in range and
differs from `14`, and the result is `{3, 5}` (concretely `(3, 5)`). -/
theorem factor_15_succeeds_witness :
    ((∀ d ∈ [3], 2 ≤ d ∧ d < 15) ∧ (∃ d ∈ [3], d ≠ 14))
    ∧ find_factors 15 [3] = some (3, 5)
    ∧ (find_factors 15 [3] = some (3, 5) ∨ find_factors 15 [3] = some (5, 3)) :=
  ⟨⟨by decide, by decide⟩, by decide, factor_15_succeeds [3] (by decide) (by decide)⟩

/-- Claim C3 (counterexample): in the demo builder the stored
conditional-phase angle is not `2π (base ^ (2 ^ j) mod modulus) / modulus`:
for `base = 2`, `modulus = 15`, `precision = 3`, at counting position
`j = 2` the gate's angle is `2π · 16 / 15`, not `2π · (16 mod 15) / 15`. -/
theorem demo_angle_counterexample :
    (quantum_phase_estimation 2 15 3).gates.filter (is_aux_cp 3 2)
      ≠ [Gate.cp (2 * ((2 ^ 2 ^ 2 % 15 : ℕ) : ℚ) / ((15 : ℕ) : ℚ)) 2 3] := by
  rw [quantum_phase_estimation_aux_cp 2 15 3 2 (by omega)]
  intro h
  have h2 : (2 * ((2 ^ 2 ^ 2 : ℕ) : ℚ) / ((15 : ℕ) : ℚ))
      = 2 * ((2 ^ 2 ^ 2 % 15 : ℕ) : ℚ) / ((15 : ℕ) : ℚ) := by
    injection h with h1 _
    injection h1
  norm_num at h2

/-- Claim C3 (amended): for every counting position `j < precision`, each
builder applies exactly one conditional-phase gate with control `j` and an
auxiliary target.  In `ShorAlgorithm`'s builder (for `modulus ≥ 2`) its angle
is `2π (base ^ (2 ^ j) mod modulus) / modulus` as claimed; in the demo
builder it is `2π base ^ (2 ^ j) / modulus`, which differs from the claimed
angle by an integer multiple of `2π` (the same phase gate, but not the same
stored angle).  Angles below are in units of π. -/
theorem conditional_phase_gate_placement (N a precision j : ℕ) (hN : 2 ≤ N)
    (hj : j < precision) :
    (quantum_period_finding N a precision).gates.filter (is_aux_cp precision j)
        = [Gate.cp (2 * ((a ^ 2 ^ j % N : ℕ) : ℚ) / (N : ℚ)) j precision]
    ∧ (quantum_phase_estimation a N precision).gates.filter (is_aux_cp precision j)
        = [Gate.cp (2 * ((a ^ 2 ^ j : ℕ) : ℚ) / (N : ℚ)) j precision]
    ∧ ∃ m : ℤ, 2 * ((a ^ 2 ^ j : ℕ) : ℚ) / (N : ℚ)
        = 2 * ((a ^ 2 ^ j % N : ℕ) : ℚ) / (N : ℚ) + 2 * (m : ℚ) := by
  refine ⟨quantum_period_finding_aux_cp N a precision j hN hj,
    quantum_phase_estimation_aux_cp a N precision j hj,
    ((a ^ 2 ^ j / N : ℕ) : ℤ), ?_⟩
  have hN0 : (N : ℚ) ≠ 0 := Nat.cast_ne_zero.2 (by omega)
  have h := Nat.div_add_mod (a ^ 2 ^ j) N
  have hq : ((a ^ 2 ^ j : ℕ) : ℚ)
      = (N : ℚ) * ((a ^ 2 ^ j / N : ℕ) : ℚ) + ((a ^ 2 ^ j % N : ℕ) : ℚ) := by
    exact_mod_cast congrArg (fun z : ℕ => (z : ℚ)) h.symm
  rw [hq, Int.cast_natCast]
  field_simp
  ring

/-- Witness for the amended C3: `base = 2`, `modulus = 15`, `precision = 3`,
counting position `j = 1`: one auxiliary conditional-phase gate per builder,
with angles `2π · 4 / 15` in both (here `2 ^ 2 ^ 1 = 4 < 15`, so the two
angle formulas coincide and the multiple of `2π` is zero). -/
theorem conditional_phase_gate_placement_witness :
    (2 ≤ 15 ∧ 1 < 3)
    ∧ ((quantum_period_finding 15 2 3).gates.filter (is_aux_cp 3 1)
        = [Gate.cp (2 * ((2 ^ 2 ^ 1 % 15 : ℕ) : ℚ) / ((15 : ℕ) : ℚ)) 1 3]
      ∧ (quantum_phase_estimation 2 15 3).gates.filter (is_aux_cp 3 1)
        = [Gate.cp (2 * ((2 ^ 2 ^ 1 : ℕ) : ℚ) / ((15 : ℕ) : ℚ)) 1 3]
      ∧ ∃ m : ℤ, 2 * ((2 ^ 2 ^ 1 : ℕ) : ℚ) / ((15 : ℕ) : ℚ)
          = 2 * ((2 ^ 2 ^ 1 % 15 : ℕ) : ℚ) / ((15 : ℕ) : ℚ) + 2 * (m : ℚ)) :=
  ⟨by decide, conditional_phase_gate_placement 15 2 3 1 (by decide) (by decide)⟩

/-- Claim C8: for every base, modulus `N ≥ 2` and precision `≥ 1`, both
builders size the registers as claimed: total qubit count
`precision + ceil(log2 N)`, classical-bit count `precision`, where
`ceil_log2 N` is indeed the ceiling of `log2 N` (the least `k` with
`N ≤ 2 ^ k`); concretely, `build_circuit(2, 15, 4)` has `8` qubits and `4`
classical bits. -/
theorem circuit_register_sizing (a N precision : ℕ) (hN : 2 ≤ N) (hp : 1 ≤ precision) :
    ((quantum_phase_estimation a N precision).num_qubits = precision + ceil_log2 N
      ∧ (quantum_phase_estimation a N precision).num_clbits = precision
      ∧ (quantum_period_finding N a precision).num_qubits = precision + ceil_log2 N
      ∧ (quantum_period_finding N a precision).num_clbits = precision)
    ∧ (N ≤ 2 ^ ceil_log2 N ∧ 2 ^ (ceil_log2 N - 1) < N)
    ∧ ((quantum_phase_estimation 2 15 4).num_qubits = 8
      ∧ (quantum_phase_estimation 2 15 4).num_clbits = 4) :=
  ⟨⟨rfl, rfl, rfl, rfl⟩, ceil_log2_spec N hN, by decide, by decide⟩

/-- Witness for C8: at `base = 2`, `modulus = 15`, `precision = 4` the
hypotheses hold; the auxiliary width is `ceil_log2 15 = 4` and the totals are
`8` qubits and `4` classical bits. -/
theorem circuit_register_sizing_witness :
    (2 ≤ 15 ∧ 1 ≤ 4) ∧ ceil_log2 15 = 4
    ∧ (((quantum_phase_estimation 2 15 4).num_qubits = 4 + ceil_log2 15
        ∧ (quantum_phase_estimation 2 15 4).num_clbits = 4
        ∧ (quantum_period_finding 15 2 4).num_qubits = 4 + ceil_log2 15
        ∧ (quantum_period_finding 15 2 4).num_clbits = 4)
      ∧ (15 ≤ 2 ^ ceil_log2 15 ∧ 2 ^ (ceil_log2 15 - 1) < 15)
      ∧ ((quantum_phase_estimation 2 15 4).num_qubits = 8
        ∧ (quantum_phase_estimation 2 15 4).num_clbits = 4)) :=
  ⟨by decide, by decide, circuit_register_sizing 2 15 4 (by decide) (by decide)⟩
